import Mathlib

/-!
Shallow embedding of the promo-code precompute pipeline
(`internal/precompute/partition.go`, `internal/precompute/writer.go` and the
bucket reducer `processBucket`).

Records are modelled as byte lists (`List Nat`, each element a byte value),
file contents as byte lists, and the Go `int` type as `Int` (with the
`uint32` conversion made explicit as reduction modulo `2 ^ 32`).
-/

/-- Value of `2 ^ 32`, the modulus of Go `uint32` arithmetic. -/
def u32 : Nat := 4294967296

/-- FNV-1a 32-bit prime. -/
def fnvPrime : Nat := 16777619

/-- FNV-1a 32-bit offset basis. -/
def fnv1a32Offset : Nat := 2166136261

/-- FNV-1a 32-bit hash of a byte sequence, as computed by `fnv.New32a` +
`Write` + `Sum32`: starting from the offset basis, each byte is XORed in and
the state is multiplied by the prime in `uint32` arithmetic. -/
def fnv1a32 (code : List Nat) : Nat :=
  code.foldl (fun h b => ((h ^^^ b) * fnvPrime) % u32) fnv1a32Offset

/-- Embedding of `hashCode` (partition.go): `int(h.Sum32() % uint32(numBuckets))`.
The Go conversion `uint32(numBuckets)` reduces the (possibly negative) `int`
modulo `2 ^ 32`; when that reduced value is `0` the Go expression divides by
zero and panics, modelled here as `none`. -/
def hashCode (code : List Nat) (numBuckets : Int) : Option Int :=
  let m : Nat := (numBuckets % (u32 : Int)).toNat
  if m = 0 then none else some ((fnv1a32 code % m : Nat) : Int)

/-- The constant `numBuckets = 1000` from partition.go. -/
def numBuckets : Nat := 1000

/-- Bucket assignment used by the partitioner: `hashCode code numBuckets`
specialised to the constant 1000 bucket count (total, since 1000 ≠ 0). -/
def bucketOf (code : List Nat) : Nat := fnv1a32 code % numBuckets

/-- Embedding of `dropCR` from Go's `bufio.ScanLines`: drops one trailing
carriage-return byte if present. -/
def dropCR (l : List Nat) : List Nat :=
  if l.getLast? = some 13 then l.dropLast else l

/-- Worker for `scanLines`: accumulates the current line (in reverse) and
emits a token at each newline byte and at end of input. -/
def scanAux (acc : List Nat) : List Nat → List (List Nat)
  | [] => [dropCR acc.reverse]
  | b :: rest =>
    if b = 10 then
      dropCR acc.reverse :: (if rest.isEmpty then [] else scanAux [] rest)
    else scanAux (b :: acc) rest

/-- Embedding of a `bufio.Scanner` with the default `ScanLines` split function
run to completion over the whole input: tokens are the maximal `\n`-free
segments, each with one trailing `\r` dropped; a final fragment without a
trailing `\n` is also emitted (with `dropCR` applied); an empty input yields
no tokens. -/
def scanLines (data : List Nat) : List (List Nat) :=
  if data.isEmpty then [] else scanAux [] data

/-- Embedding of `strings.Split(line, "|")` for the one-byte separator `|`
(byte 124): splits at every separator occurrence, keeping empty parts. -/
def splitPipe : List Nat → List (List Nat)
  | [] => [[]]
  | b :: rest =>
    if b = 124 then [] :: splitPipe rest
    else (b :: (splitPipe rest).headI) :: (splitPipe rest).tail

/-- ASCII decimal digit test ('0' ≤ b ≤ '9'). -/
def isDigit (b : Nat) : Bool := 48 ≤ b && b ≤ 57

/-- Decimal value of a digit string (most significant first). -/
def digitsVal (l : List Nat) : Nat := l.foldl (fun a b => a * 10 + (b - 48)) 0

/-- Largest Go `int` value (64-bit): `2 ^ 63 - 1`. -/
def intMax64 : Nat := 9223372036854775807

/-- Digit-and-range part of `strconv.Atoi`: requires at least one byte, all
bytes decimal digits, and the resulting value inside the `int64` range
(taking the sign into account). -/
def atoiCore (neg : Bool) (digs : List Nat) : Option Int :=
  if digs.isEmpty then none
  else if digs.all isDigit then
    let n := digitsVal digs
    if neg then (if n ≤ intMax64 + 1 then some (-(n : Int)) else none)
    else (if n ≤ intMax64 then some ((n : Int)) else none)
  else none

/-- Embedding of `strconv.Atoi`: optional leading `+` (byte 43) or `-`
(byte 45), then one or more decimal digits, value required to fit a 64-bit
`int`; anything else is an error (`none`). -/
def atoi (s : List Nat) : Option Int :=
  match s with
  | [] => none
  | b :: rest =>
    if b = 43 then atoiCore false rest
    else if b = 45 then atoiCore true rest
    else atoiCore false (b :: rest)

/-- Fuel-indexed worker for `natDecimal`; the fuel only drives structural
termination and is irrelevant as long as it is at least the argument. -/
def natDecimalAux : Nat → Nat → List Nat
  | 0, n => [48 + n]
  | fuel + 1, n =>
    if n < 10 then [48 + n]
    else natDecimalAux fuel (n / 10) ++ [48 + n % 10]

/-- Decimal rendering of a natural number as ASCII digit bytes, as produced
by `fmt.Sprintf("%d", fileIdx)` for a non-negative index. -/
def natDecimal (n : Nat) : List Nat := natDecimalAux n n

/-- Length filter applied by `partitionFiles` to each scanned line: skip empty
lines, keep only codes of byte length 8 to 10. -/
def keepCode (c : List Nat) : Bool :=
  !c.isEmpty && decide (8 ≤ c.length) && decide (c.length ≤ 10)

/-- Records of one input file that survive the partitioner's per-line filter,
in file order. -/
def survivors (file : List Nat) : List (List Nat) :=
  (scanLines file).filter keepCode

/-- Per-code reducer state from `processBucket` (part of `codeInfo`):
the set of source indices seen so far (as a duplicate-free list) and the
promotion flag. -/
structure CodeInfo where
  fileIndices : List Int
  isValid : Bool
deriving DecidableEq

/-- Association-list reading of the Go map `codeMap`: first binding wins. -/
def lookupMap (k : List Nat) : List (List Nat × CodeInfo) → Option CodeInfo
  | [] => none
  | (k', v) :: rest => if k' = k then some v else lookupMap k rest

/-- Association-list update of the Go map `codeMap`: replace the first
binding for the key, or append a new binding. -/
def updateMap (k : List Nat) (v : CodeInfo) :
    List (List Nat × CodeInfo) → List (List Nat × CodeInfo)
  | [] => [(k, v)]
  | (k', v') :: rest =>
    if k' = k then (k, v) :: rest else (k', v') :: updateMap k v rest

/-- Reducer state of `processBucket`: the `codeMap` and the accumulated
`validCodes` slice. -/
structure BucketState where
  codeMap : List (List Nat × CodeInfo)
  validCodes : List (List Nat)
deriving DecidableEq

/-- Initial reducer state: empty map, no valid codes. -/
def initState : BucketState := ⟨[], []⟩

/-- One parsed spill entry processed by `processBucket`: look up (or create)
the code's info; if already promoted, ignore; otherwise add the index to its
set and, when the set reaches two distinct indices, promote the code, append
it to `validCodes` and release the index set. -/
def stepEntry (st : BucketState) (code : List Nat) (idx : Int) : BucketState :=
  let info := (lookupMap code st.codeMap).getD ⟨[], false⟩
  if info.isValid then st
  else
    let inds := if idx ∈ info.fileIndices then info.fileIndices
                else info.fileIndices ++ [idx]
    if 2 ≤ inds.length then
      { codeMap := updateMap code ⟨[], true⟩ st.codeMap,
        validCodes := st.validCodes ++ [code] }
    else
      { codeMap := updateMap code ⟨inds, false⟩ st.codeMap,
        validCodes := st.validCodes }

/-- Line parsing of `processBucket`: `strings.Split(line, "|")` must give
exactly two parts and the second must pass `strconv.Atoi`; otherwise the line
is malformed (`none`). -/
def parseLine (line : List Nat) : Option (List Nat × Int) :=
  match splitPipe line with
  | [code, idxStr] =>
    match atoi idxStr with
    | some i => some (code, i)
    | none => none
  | _ => none

/-- Processing of one spill line: malformed lines are skipped, well-formed
lines feed `stepEntry`. -/
def stepLine (st : BucketState) (line : List Nat) : BucketState :=
  match parseLine line with
  | some ci => stepEntry st ci.1 ci.2
  | none => st

/-- Fold of `stepEntry` over a list of already-parsed entries. -/
def processEntriesState (entries : List (List Nat × Int)) : BucketState :=
  entries.foldl (fun st e => stepEntry st e.1 e.2) initState

/-- Data path of `processBucket`: scan the spill file into lines, fold the
reducer over them, return the accumulated `validCodes`. This is the value the
Go function returns when its scanner succeeds; the scanner's token-size error
path is modelled by `processBucketRun` below. -/
def processBucket (spill : List Nat) : List (List Nat) :=
  ((scanLines spill).foldl stepLine initState).validCodes

/-- Default token limit of a `bufio.Scanner` without a `Buffer` call
(`bufio.MaxScanTokenSize` = 64 KiB), as used by the reducer's scanner. -/
def maxScanTokenSize : Nat := 65536

/-- Worker for `rawSegments`: like `scanAux` but emitting the raw
newline-free segments without `dropCR`. -/
def rawScanAux (acc : List Nat) : List Nat → List (List Nat)
  | [] => [acc.reverse]
  | b :: rest =>
    if b = 10 then
      acc.reverse :: (if rest.isEmpty then [] else rawScanAux [] rest)
    else rawScanAux (b :: acc) rest

/-- Raw newline-free segments of the input, before `dropCR`: these are the
byte runs the scanner must buffer, so the 64 KiB token limit applies to their
lengths (a carriage return still counts here even though `ScanLines` strips
it from the token). -/
def rawSegments (data : List Nat) : List (List Nat) :=
  if data.isEmpty then [] else rawScanAux [] data

/-- Embedding of the full `processBucket` including its error path: the
reducer's scanner is a default `bufio.Scanner` (no `Buffer` call), so a spill
file containing any newline-free segment of `bufio.MaxScanTokenSize` (64 KiB)
or more bytes makes `Scan` stop with `ErrTooLong` and `processBucket` return
an error and no list, modelled as `none`; otherwise the scan succeeds and the
reducer returns `processBucket`'s record list. -/
def processBucketRun (spill : List Nat) : Option (List (List Nat)) :=
  if (rawSegments spill).all (fun l => decide (l.length < maxScanTokenSize)) then
    some (processBucket spill)
  else none

/-- Serialization of one spill entry without its line terminator:
`<record>|<decimal index>`. -/
def entryLine (e : List Nat × Nat) : List Nat :=
  e.1 ++ 124 :: natDecimal e.2

/-- Byte content of a spill file holding the given entries, one
`<record>|<index>\n` line per entry. -/
def spillOfEntries (entries : List (List Nat × Nat)) : List Nat :=
  (entries.map (fun e => entryLine e ++ [10])).flatten

/-- Entries routed to bucket `b` by the partitioner, starting the source
index count at `k`: for each file in order, each surviving record hashing to
`b` contributes one `(record, source index)` entry. -/
def spillLinesFrom (k : Nat) (b : Nat) : List (List Nat) → List (List Nat × Nat)
  | [] => []
  | f :: rest =>
    ((survivors f).filterMap
      (fun c => if bucketOf c = b then some (c, k) else none))
      ++ spillLinesFrom (k + 1) b rest

/-- Entries the partitioner appends to bucket `b`'s spill file, in
file-major, line-minor order. -/
def spillLines (inputs : List (List Nat)) (b : Nat) : List (List Nat × Nat) :=
  spillLinesFrom 0 b inputs

/-- Byte content of bucket `b`'s spill file after partitioning. -/
def spillContent (inputs : List (List Nat)) (b : Nat) : List Nat :=
  spillOfEntries (spillLines inputs b)

/-- Per-bucket reducer outputs, one per bucket in bucket order (processing an
empty spill file yields `[]`, which also models the orchestrator skipping
empty or absent spill files). -/
def bucketResults (inputs : List (List Nat)) : List (List (List Nat)) :=
  (List.range numBuckets).map (fun b => processBucket (spillContent inputs b))

/-- Final sort of `processBuckets`: `sort.Strings` on byte strings, i.e. the
sorted permutation under lexicographic byte order (`List ℕ` order). -/
def sortLex (l : List (List Nat)) : List (List Nat) :=
  List.insertionSort (· ≤ ·) l

/-- Embedding of the error-free data path of `FindValidCodesHashPartition`:
partition every input into bucket spill files, reduce each bucket, concatenate
and sort. -/
def findValidCodes (inputs : List (List Nat)) : List (List Nat) :=
  sortLex (bucketResults inputs).flatten

/-- Embedding of `WriteTextFile` (writer.go): the bytes written to the output
file — the records joined by `\n`, plus one trailing `\n` when the record
list is non-empty. -/
def writeTextFile (validCodes : List (List Nat)) : List Nat :=
  let content := List.intercalate [10] validCodes
  if validCodes.length > 0 then content ++ [10] else content

/-- Input contract of the pipeline (spec §3, §6): at least one input file, a
small number of files, and every scanned record free of the delimiter byte
`|` and no longer than the 1 MiB scanner token limit. -/
def inputContract (inputs : List (List Nat)) : Prop :=
  inputs ≠ [] ∧ inputs.length < 2 ^ 63 ∧
    ∀ f ∈ inputs, ∀ l ∈ scanLines f, (124 : Nat) ∉ l ∧ l.length ≤ 1048576

/-- Distinct source-index set paired with record `r` in a list of parsed
entries. -/
def idxSet (entries : List (List Nat × Int)) (r : List Nat) : Finset Int :=
  ((entries.filter (fun e => e.1 = r)).map (fun e => e.2)).toFinset

/-- Invariant of the `processBucket` fold relating the reducer state to the
list of well-formed entries processed so far: `validCodes` holds, once each,
exactly the records paired with at least two distinct source indices; an
unpromoted map binding carries exactly the distinct indices seen for its
record; an absent binding means the record has not been seen. -/
def ReducerInv (st : BucketState) (entries : List (List Nat × Int)) : Prop :=
  st.validCodes.Nodup
    ∧ (∀ r, r ∈ st.validCodes ↔ 2 ≤ (idxSet entries r).card)
    ∧ (∀ r info, lookupMap r st.codeMap = some info →
        ((info.isValid = true) ↔ r ∈ st.validCodes)
        ∧ (info.isValid = false →
            info.fileIndices.Nodup ∧ info.fileIndices.toFinset = idxSet entries r))
    ∧ (∀ r, lookupMap r st.codeMap = none → idxSet entries r = ∅)


/-! ### Hashing -/

theorem fnv1a32_lt (code : List Nat) : fnv1a32 code < u32 := by
  have : ∀ l h, h < u32 → List.foldl (fun h b => ((h ^^^ b) * fnvPrime) % u32) h l < u32 := by
    intro l
    induction l with
    | nil => intro h hh; simpa using hh
    | cons b rest ih =>
      intro h hh
      exact ih _ (Nat.mod_lt _ (by norm_num [u32]))
  exact this code fnv1a32Offset (by norm_num [u32, fnv1a32Offset])

theorem hashCode_eq_bucketOf (code : List Nat) :
    hashCode code ((numBuckets : Nat) : Int) = some ((bucketOf code : Nat) : Int) := by
  simp [hashCode, bucketOf, numBuckets, u32]

/-- C5 (amended): hashCode is a pure function of the record bytes and `B`,
returning the 32-bit FNV-1a hash of the record reduced modulo `uint32(B)`;
for every `B ≥ 1` whose reduction `B mod 2^32` is nonzero the result is
defined and lies in `[0, B)`, and for `B = 1` it is `0`. (At `B = 2^32`,
where `uint32(B) = 0`, the code faults instead; see the counterexample.) -/
theorem hashCode_contract (code : List Nat) (B : Int) (h1 : 1 ≤ B)
    (h2 : B % ((u32 : Nat) : Int) ≠ 0) :
    ∃ r : Int, hashCode code B = some r ∧ 0 ≤ r ∧ r < B ∧
      r = ((fnv1a32 code % (B % ((u32 : Nat) : Int)).toNat : Nat) : Int) ∧
      (B = 1 → r = 0) := by
  have hpos : (0 : Int) < ((u32 : Nat) : Int) := by norm_num [u32]
  have hnn : 0 ≤ B % ((u32 : Nat) : Int) := Int.emod_nonneg B (by norm_num [u32])
  have hlt : B % ((u32 : Nat) : Int) < ((u32 : Nat) : Int) := Int.emod_lt_of_pos B hpos
  set m : Nat := (B % ((u32 : Nat) : Int)).toNat with hm
  have hmcast : ((m : Nat) : Int) = B % ((u32 : Nat) : Int) := Int.toNat_of_nonneg hnn
  have hm0 : m ≠ 0 := by
    intro h
    apply h2
    rw [← hmcast, h]
    rfl
  refine ⟨((fnv1a32 code % m : Nat) : Int), ?_, ?_, ?_, rfl, ?_⟩
  · simp [hashCode, ← hm, hm0]
  · exact Int.ofNat_nonneg _
  · have hmod : fnv1a32 code % m < m := Nat.mod_lt _ (Nat.pos_of_ne_zero hm0)
    have h3 : ((fnv1a32 code % m : Nat) : Int) < ((m : Nat) : Int) := by
      exact_mod_cast hmod
    have h4 : B % ((u32 : Nat) : Int) ≤ B := by
      rcases lt_or_le B ((u32 : Nat) : Int) with h | h
      · rw [Int.emod_eq_of_lt (by omega) h]
      · omega
    omega
  · intro hB1
    have : m = 1 := by
      have : B % ((u32 : Nat) : Int) = 1 := by
        rw [hB1]
        norm_num [u32]
      omega
    simp [this]

/-- Witness for C5's amended theorem at the concrete bucket count used by the
partitioner (B = 1000) and a concrete record. -/
theorem hashCode_contract_witness :
    ∃ r : Int, hashCode [72, 73] 1000 = some r ∧ 0 ≤ r ∧ r < 1000 ∧
      r = ((fnv1a32 [72, 73] % ((1000 : Int) % ((u32 : Nat) : Int)).toNat : Nat) : Int) ∧
      ((1000 : Int) = 1 → r = 0) :=
  hashCode_contract [72, 73] 1000 (by norm_num) (by norm_num [u32])

/-- Counterexample to C5 as stated: at `B = 2^32` (a legal positive Go `int`
on 64-bit platforms) the conversion `uint32(B)` is `0`, so `hashCode` divides
by zero and faults rather than returning a value in `[0, B)`. -/
theorem hashCode_pow32_counterexample :
    hashCode [72] 4294967296 = none ∧ (1 : Int) ≤ 4294967296 := by
  constructor
  · simp [hashCode, u32]
  · norm_num

/-- C10: hashCode is total whenever `1 ≤ B < 2^32` (the modulo operand
`uint32(B)` is then nonzero), and at `B = 0` the modulo operand is zero and
the function faults, so `B ≥ 1` is a necessary precondition. -/
theorem hashCode_total (code : List Nat) (B : Int) (h1 : 1 ≤ B)
    (h2 : B < ((u32 : Nat) : Int)) :
    (∃ r, hashCode code B = some r) ∧ hashCode code 0 = none := by
  constructor
  · have hmod : B % ((u32 : Nat) : Int) = B := Int.emod_eq_of_lt (by omega) h2
    refine ⟨((fnv1a32 code % B.toNat : Nat) : Int), ?_⟩
    have : B.toNat ≠ 0 := by omega
    simp [hashCode, hmod, this]
  · simp [hashCode]

/-- Witness for C10 at the concrete bucket count `B = 1000`. -/
theorem hashCode_total_witness :
    (∃ r, hashCode [65] 1000 = some r) ∧ hashCode [65] 0 = none :=
  hashCode_total [65] 1000 (by norm_num) (by norm_num [u32])

/-! ### Line scanning -/

theorem dropCR_of_last_ne (l : List Nat) (h : l.getLast? ≠ some 13) :
    dropCR l = l := by
  simp [dropCR, h]

theorem dropCR_append_cr (l : List Nat) : dropCR (l ++ [13]) = l := by
  simp [dropCR, List.getLast?_concat, List.dropLast_concat]

theorem mem_dropCR (l : List Nat) (b : Nat) (h : b ∈ dropCR l) : b ∈ l := by
  unfold dropCR at h
  split at h
  · exact (List.dropLast_sublist l).mem h
  · exact h

theorem scanAux_no_nl (l : List Nat) : ∀ acc, (10 : Nat) ∉ l →
    scanAux acc l = [dropCR (acc.reverse ++ l)] := by
  induction l with
  | nil => intro acc _; simp [scanAux]
  | cons b rest ih =>
    intro acc h
    have hb : b ≠ 10 := fun hb => h (hb ▸ List.mem_cons_self b rest)
    have h' : (10 : Nat) ∉ rest := fun hr => h (List.mem_cons_of_mem b hr)
    simp only [scanAux, hb, if_false]
    rw [ih (b :: acc) h']
    simp

theorem scanAux_append_nl (l : List Nat) : ∀ acc rest, (10 : Nat) ∉ l →
    scanAux acc (l ++ 10 :: rest) =
      dropCR (acc.reverse ++ l) :: (if rest.isEmpty then [] else scanAux [] rest) := by
  induction l with
  | nil => intro acc rest _; simp [scanAux]
  | cons b l' ih =>
    intro acc rest h
    have hb : b ≠ 10 := fun hb => h (hb ▸ List.mem_cons_self b l')
    have h' : (10 : Nat) ∉ l' := fun hr => h (List.mem_cons_of_mem b hr)
    simp only [List.cons_append, scanAux, hb, if_false, List.append_eq]
    rw [ih (b :: acc) rest h']
    simp

theorem scanLines_append_line (l rest : List Nat) (h : (10 : Nat) ∉ l) :
    scanLines (l ++ 10 :: rest) = dropCR l :: scanLines rest := by
  rw [scanLines, if_neg (by simp)]
  rw [scanAux_append_nl l [] rest h]
  rcases rest with _ | ⟨b, rest'⟩
  · simp [scanLines]
  · simp [scanLines]

theorem scanLines_mem_no_nl (data : List Nat) :
    ∀ l ∈ scanLines data, (10 : Nat) ∉ l := by
  have aux : ∀ data acc, (10 : Nat) ∉ acc →
      ∀ l ∈ scanAux acc data, (10 : Nat) ∉ l := by
    intro data
    induction data with
    | nil =>
      intro acc hacc l hl
      simp [scanAux] at hl
      subst hl
      intro hmem
      exact hacc (by simpa using mem_dropCR _ _ hmem)
    | cons b rest ih =>
      intro acc hacc l hl
      by_cases hb : b = 10
      · subst hb
        simp only [scanAux, if_pos rfl] at hl
        rcases List.mem_cons.mp hl with h1 | h2
        · subst h1
          intro hmem
          exact hacc (by simpa using mem_dropCR _ _ hmem)
        · split at h2
          · simp at h2
          · exact ih [] (by simp) l h2
      · simp only [scanAux, hb, if_false] at hl
        exact ih (b :: acc) (by simp [hacc, Ne.symm hb]) l hl
  intro l hl
  rw [scanLines] at hl
  split at hl
  · simp at hl
  · exact aux data [] (by simp) l hl

theorem scanLines_flatten (lines : List (List Nat))
    (h : ∀ l ∈ lines, (10 : Nat) ∉ l ∧ l.getLast? ≠ some 13) :
    scanLines ((lines.map (· ++ [10])).flatten) = lines := by
  induction lines with
  | nil => simp [scanLines]
  | cons l ls ih =>
    have hl := h l (List.mem_cons_self l ls)
    have hflat : ((l :: ls).map (· ++ [10])).flatten
        = l ++ 10 :: (ls.map (· ++ [10])).flatten := by
      simp
    rw [hflat, scanLines_append_line l _ hl.1, dropCR_of_last_ne l hl.2,
      ih (fun x hx => h x (List.mem_cons_of_mem l hx))]

/-- Counterexample to C7 as stated: for the input file `ABCDEFG\r\n` the
scanner strips the trailing carriage return, so the extracted record is the
7-byte `ABCDEFG` — not the 8-byte `ABCDEFG\r` the claim predicts — and the
length filter drops it. -/
theorem crlf_counterexample :
    scanLines [65, 66, 67, 68, 69, 70, 71, 13, 10] = [[65, 66, 67, 68, 69, 70, 71]]
      ∧ survivors [65, 66, 67, 68, 69, 70, 71, 13, 10] = [] := by
  constructor <;> decide

/-- C7 (amended): the partitioner's scanner strips exactly one trailing
carriage return before each `\n`: a line written as `l\r\n` yields the record
`l` (the `\r` does not count toward the record's length for the 8-10 byte
filter). -/
theorem scanLines_strips_cr (l rest : List Nat) (h : (10 : Nat) ∉ l) :
    scanLines (l ++ [13, 10] ++ rest) = l :: scanLines rest := by
  have h13 : (10 : Nat) ∉ l ++ [13] := by
    intro hm
    rcases List.mem_append.mp hm with h1 | h2
    · exact h h1
    · simp at h2
  have : l ++ [13, 10] ++ rest = (l ++ [13]) ++ 10 :: rest := by
    simp
  rw [this, scanLines_append_line _ _ h13, dropCR_append_cr]

/-- Witness for C7's amended theorem: the line `ABCDEFG\r\n` scans to the
single 7-byte record `ABCDEFG`. -/
theorem scanLines_strips_cr_witness :
    scanLines ([65, 66, 67, 68, 69, 70, 71] ++ [13, 10] ++ []) =
      [65, 66, 67, 68, 69, 70, 71] :: scanLines [] :=
  scanLines_strips_cr [65, 66, 67, 68, 69, 70, 71] [] (by decide)

/-! ### Spill-line parsing -/

theorem splitPipe_ne_nil (l : List Nat) : splitPipe l ≠ [] := by
  cases l with
  | nil => simp [splitPipe]
  | cons b rest =>
    by_cases hb : b = 124 <;> simp [splitPipe, hb]

theorem splitPipe_no_pipe (l : List Nat) (h : (124 : Nat) ∉ l) :
    splitPipe l = [l] := by
  induction l with
  | nil => rfl
  | cons b rest ih =>
    have hb : b ≠ 124 := fun hb => h (hb ▸ List.mem_cons_self b rest)
    have h' : (124 : Nat) ∉ rest := fun hr => h (List.mem_cons_of_mem b hr)
    simp [splitPipe, hb, ih h']

theorem splitPipe_append_pipe (a b : List Nat) (h : (124 : Nat) ∉ a) :
    splitPipe (a ++ 124 :: b) = a :: splitPipe b := by
  induction a with
  | nil => simp [splitPipe]
  | cons x a' ih =>
    have hx : x ≠ 124 := fun hx => h (hx ▸ List.mem_cons_self x a')
    have h' : (124 : Nat) ∉ a' := fun hr => h (List.mem_cons_of_mem x hr)
    simp [splitPipe, hx, ih h']

theorem splitPipe_length (l : List Nat) :
    (splitPipe l).length = l.count 124 + 1 := by
  induction l with
  | nil => rfl
  | cons b rest ih =>
    by_cases hb : b = 124
    · subst hb
      simp [splitPipe, List.count_cons, ih]
    · have hne := splitPipe_ne_nil rest
      rcases List.exists_cons_of_ne_nil hne with ⟨p, ps, hp⟩
      simp [splitPipe, hb, hp, List.count_cons, Ne.symm hb]
      have := ih
      rw [hp] at this
      simpa using this

/-! ### Decimal rendering and parsing -/

theorem natDecimalAux_congr (n : Nat) :
    ∀ fuel fuel', n ≤ fuel → n ≤ fuel' →
      natDecimalAux fuel n = natDecimalAux fuel' n := by
  induction n using Nat.strong_induction_on with
  | _ n ih =>
    intro fuel fuel' hf hf'
    match fuel, fuel' with
    | 0, 0 => rfl
    | 0, f' + 1 =>
      have : n = 0 := Nat.le_zero.mp hf
      subst this
      simp [natDecimalAux]
    | f + 1, 0 =>
      have : n = 0 := Nat.le_zero.mp hf'
      subst this
      simp [natDecimalAux]
    | f + 1, f' + 1 =>
      by_cases h10 : n < 10
      · simp [natDecimalAux, h10]
      · have hdiv : n / 10 < n := Nat.div_lt_self (by omega) (by omega)
        simp only [natDecimalAux, h10, if_false]
        rw [ih (n / 10) hdiv f f' (by omega) (by omega)]

theorem natDecimal_step (n : Nat) :
    natDecimal n = if n < 10 then [48 + n]
      else natDecimal (n / 10) ++ [48 + n % 10] := by
  by_cases h10 : n < 10
  · rw [if_pos h10]
    unfold natDecimal
    match n, h10 with
    | 0, _ => rfl
    | m + 1, h => simp [natDecimalAux, h]
  · rw [if_neg h10]
    unfold natDecimal
    have hn : ∃ m, n = m + 1 := ⟨n - 1, by omega⟩
    rcases hn with ⟨m, rfl⟩
    simp only [natDecimalAux, h10, if_false]
    have hdiv : (m + 1) / 10 < m + 1 := Nat.div_lt_self (by omega) (by omega)
    rw [natDecimalAux_congr ((m + 1) / 10) m ((m + 1) / 10) (by omega) (by omega)]

theorem natDecimal_digits (n : Nat) :
    ∀ b ∈ natDecimal n, 48 ≤ b ∧ b ≤ 57 := by
  induction n using Nat.strong_induction_on with
  | _ n ih =>
    intro b hb
    rw [natDecimal_step] at hb
    by_cases h10 : n < 10
    · rw [if_pos h10] at hb
      simp at hb
      omega
    · rw [if_neg h10] at hb
      rcases List.mem_append.mp hb with h1 | h2
      · exact ih (n / 10) (Nat.div_lt_self (by omega) (by omega)) b h1
      · have : n % 10 < 10 := Nat.mod_lt _ (by omega)
        simp at h2
        omega

theorem natDecimal_ne_nil (n : Nat) : natDecimal n ≠ [] := by
  rw [natDecimal_step]
  by_cases h10 : n < 10 <;> simp [h10]

theorem digitsVal_natDecimal (n : Nat) : digitsVal (natDecimal n) = n := by
  induction n using Nat.strong_induction_on with
  | _ n ih =>
    rw [natDecimal_step]
    by_cases h10 : n < 10
    · simp [h10, digitsVal]
    · rw [if_neg h10]
      unfold digitsVal
      rw [List.foldl_append]
      have := ih (n / 10) (Nat.div_lt_self (by omega) (by omega))
      unfold digitsVal at this
      rw [this]
      simp
      omega

theorem atoi_natDecimal (n : Nat) :
    atoi (natDecimal n) = if n ≤ intMax64 then some ((n : Nat) : Int) else none := by
  have hne := natDecimal_ne_nil n
  rcases List.exists_cons_of_ne_nil hne with ⟨d, ds, hd⟩
  have hdig := natDecimal_digits n
  have hd0 : 48 ≤ d ∧ d ≤ 57 := hdig d (by rw [hd]; exact List.mem_cons_self d ds)
  have h43 : d ≠ 43 := by omega
  have h45 : d ≠ 45 := by omega
  rw [hd, atoi, if_neg h43, if_neg h45, ← hd]
  have hall : (natDecimal n).all isDigit = true := by
    rw [List.all_eq_true]
    intro b hb
    have := hdig b hb
    simp [isDigit]
    omega
  rw [atoiCore, if_neg (by simp [hd]), if_pos hall]
  simp only [digitsVal_natDecimal]
  simp

/-! ### Malformed spill lines (bucket reducer) -/

/-- Counterexample to C6 as stated: `strconv.Atoi` accepts a leading minus
sign, so the line `Z|-1` is parsed (yielding source index `-1`) rather than
skipped; fed together with `Z|0` it makes `Z` count as present in two
distinct sources and `processBucket` emits `Z`, while under the claim the
spill would hold only one valid index for `Z` and emit nothing. -/
theorem negative_index_counterexample :
    parseLine [90, 124, 45, 49] = some ([90], -1)
      ∧ processBucket [90, 124, 45, 49, 10, 90, 124, 48, 10] = [[90]]
      ∧ processBucket [90, 124, 48, 10] = [] := by
  refine ⟨by decide, by decide, by decide⟩

/-- C6 (amended): processBucket silently skips every spill line with no `|`,
with more than one `|`, or whose index part fails `strconv.Atoi` (empty,
non-numeric, or out of the 64-bit range); such a line leaves the reducer
state unchanged and never causes an error. Lines with a parseable negative
index, however, are accepted and contribute that index. -/
theorem malformed_lines_skipped :
    (∀ st line, parseLine line = none → stepLine st line = st)
    ∧ (∀ line, line.count 124 ≠ 1 → parseLine line = none)
    ∧ (∀ c s, (124 : Nat) ∉ c → (124 : Nat) ∉ s → atoi s = none →
        parseLine (c ++ 124 :: s) = none) := by
  refine ⟨?_, ?_, ?_⟩
  · intro st line h
    simp [stepLine, h]
  · intro line h
    have hlen : (splitPipe line).length ≠ 2 := by
      rw [splitPipe_length]
      omega
    unfold parseLine
    rcases hsp : splitPipe line with _ | ⟨a, _ | ⟨b, _ | _⟩⟩ <;>
      simp_all
  · intro c s hc hs ha
    unfold parseLine
    rw [splitPipe_append_pipe c s hc, splitPipe_no_pipe s hs]
    simp [ha]

/-- Witness for C6's amended theorem on the spec's own malformed examples:
the line `Y|abc` leaves the state unchanged and the pipe-free line
`TESTCODE0` fails to parse. -/
theorem malformed_lines_skipped_witness :
    stepLine initState [89, 124, 97, 98, 99] = initState
      ∧ parseLine [84, 69, 83, 84, 67, 79, 68, 69, 48] = none :=
  ⟨malformed_lines_skipped.1 initState [89, 124, 97, 98, 99] (by decide),
    malformed_lines_skipped.2.1 [84, 69, 83, 84, 67, 79, 68, 69, 48] (by decide)⟩

/-! ### Result writer -/

/-- C9: WriteTextFile writes the given records one per line in the given
order, each line terminated by `\n`, which makes the artifact end in a single
trailing newline exactly when the record list is non-empty; for an empty list
it writes an empty file. -/
theorem writeTextFile_spec :
    (∀ codes, writeTextFile codes = (codes.map (fun c => c ++ [10])).flatten)
    ∧ writeTextFile [] = [] := by
  have key : ∀ codes, writeTextFile codes = (codes.map (fun c => c ++ [10])).flatten := by
    intro codes
    induction codes with
    | nil => rfl
    | cons c cs ih =>
      cases cs with
      | nil => simp [writeTextFile, List.intercalate]
      | cons c' cs' =>
        have hprev := ih
        rw [writeTextFile] at hprev ⊢
        simp only [List.length_cons, Nat.zero_lt_succ, if_pos] at hprev ⊢
        rw [List.intercalate, List.intersperse_cons_cons]
        rw [List.intercalate] at hprev
        simp only [List.flatten_cons, List.map_cons] at hprev ⊢
        simp only [List.append_assoc] at hprev ⊢
        rw [hprev]
  exact ⟨key, key []⟩

/-! ### Reducer invariant -/

theorem lookup_updateMap_self (k : List Nat) (v : CodeInfo)
    (m : List (List Nat × CodeInfo)) :
    lookupMap k (updateMap k v m) = some v := by
  induction m with
  | nil => simp [updateMap, lookupMap]
  | cons p rest ih =>
    rcases p with ⟨k', v'⟩
    by_cases h : k' = k
    · simp [updateMap, lookupMap, h]
    · simp [updateMap, lookupMap, h, ih]

theorem lookup_updateMap_ne (k k' : List Nat) (v : CodeInfo)
    (m : List (List Nat × CodeInfo)) (h : k' ≠ k) :
    lookupMap k' (updateMap k v m) = lookupMap k' m := by
  induction m with
  | nil => simp [updateMap, lookupMap, Ne.symm h]
  | cons p rest ih =>
    rcases p with ⟨k'', v''⟩
    by_cases hk : k'' = k
    · subst hk
      simp [updateMap, lookupMap, Ne.symm h]
    · simp [updateMap, lookupMap, hk, ih]

theorem idxSet_nil (r : List Nat) : idxSet [] r = ∅ := rfl

theorem mem_idxSet (entries : List (List Nat × Int)) (r : List Nat) (x : Int) :
    x ∈ idxSet entries r ↔ (r, x) ∈ entries := by
  unfold idxSet
  rw [List.mem_toFinset, List.mem_map]
  constructor
  · rintro ⟨e, he, hx⟩
    have := List.mem_filter.mp he
    have he1 : e.1 = r := by simpa using this.2
    have : e = (r, x) := by
      rcases e with ⟨a, b⟩
      simp at he1 hx
      simp [he1, hx]
    exact this ▸ this.symm ▸ (List.mem_filter.mp he).1
  · intro h
    exact ⟨(r, x), List.mem_filter.mpr ⟨h, by simp⟩, rfl⟩

theorem idxSet_append_self (entries : List (List Nat × Int)) (c : List Nat)
    (i : Int) : idxSet (entries ++ [(c, i)]) c = insert i (idxSet entries c) := by
  unfold idxSet
  rw [List.filter_append, List.map_append, List.toFinset_append]
  simp only [List.filter_cons, List.filter_nil]
  simp
  rw [Finset.union_comm, ← Finset.insert_eq]

theorem idxSet_append_ne (entries : List (List Nat × Int)) (c r : List Nat)
    (i : Int) (h : r ≠ c) :
    idxSet (entries ++ [(c, i)]) r = idxSet entries r := by
  unfold idxSet
  rw [List.filter_append]
  have : List.filter (fun e => e.1 = r) [(c, i)] = [] := by
    simp [List.filter_cons, Ne.symm h]
  rw [this]
  simp

theorem stepEntry_inv (st : BucketState) (entries : List (List Nat × Int))
    (c : List Nat) (i : Int) (h : ReducerInv st entries) :
    ReducerInv (stepEntry st c i) (entries ++ [(c, i)]) := by
  obtain ⟨hnd, hvc, hmap, hnone⟩ := h
  rcases hlk : lookupMap c st.codeMap with _ | info
  · -- the code has not been seen: a fresh info with index set {i} is inserted
    have hempty : idxSet entries c = ∅ := hnone c hlk
    have hcnv : c ∉ st.validCodes := by
      intro hin
      have := (hvc c).mp hin
      rw [hempty] at this
      simp at this
    have hstep : stepEntry st c i =
        { codeMap := updateMap c ⟨[i], false⟩ st.codeMap,
          validCodes := st.validCodes } := by
      unfold stepEntry
      rw [hlk]
      simp
    rw [hstep]
    refine ⟨hnd, ?_, ?_, ?_⟩
    · intro r
      by_cases hr : r = c
      · subst hr
        rw [idxSet_append_self, hempty]
        simpa using hcnv
      · rw [idxSet_append_ne entries c r i hr]
        exact hvc r
    · intro r info' hr
      by_cases hrc : r = c
      · subst hrc
        rw [lookup_updateMap_self] at hr
        cases hr
        refine ⟨by simpa using hcnv, fun _ => ⟨by simp, ?_⟩⟩
        rw [idxSet_append_self, hempty]
        simp
      · rw [lookup_updateMap_ne c r _ _ hrc] at hr
        rw [idxSet_append_ne entries c r i hrc]
        exact hmap r info' hr
    · intro r hr
      by_cases hrc : r = c
      · subst hrc
        rw [lookup_updateMap_self] at hr
        cases hr
      · rw [lookup_updateMap_ne c r _ _ hrc] at hr
        rw [idxSet_append_ne entries c r i hrc]
        exact hnone r hr
  · rcases hval : info.isValid with _ | _
    · -- the code is tracked but not yet promoted
      obtain ⟨hiff, hfalse⟩ := hmap c info hlk
      obtain ⟨hindnd, hindset⟩ := hfalse hval
      have hcnv : c ∉ st.validCodes := by
        intro hin
        rw [← hiff] at hin
        rw [hval] at hin
        cases hin
      set inds := if i ∈ info.fileIndices then info.fileIndices
                  else info.fileIndices ++ [i] with hinds
      have hindsnd : inds.Nodup := by
        rw [hinds]
        split
        · exact hindnd
        · rename_i hni
          simp [List.nodup_append, hindnd, hni]
      have hindsset : inds.toFinset = insert i (idxSet entries c) := by
        rw [hinds]
        split
        · rename_i hi
          rw [hindset]
          exact (Finset.insert_eq_self.mpr (hindset ▸ List.mem_toFinset.mpr hi)).symm
        · rw [List.toFinset_append]
          simp [hindset]
          rw [Finset.union_comm, ← Finset.insert_eq]
      have hcard : (idxSet (entries ++ [(c, i)]) c).card = inds.length := by
        rw [idxSet_append_self, ← hindsset, List.toFinset_card_of_nodup hindsnd]
      by_cases hlen : 2 ≤ inds.length
      · -- promotion: the code reaches two distinct sources and is emitted
        have hstep : stepEntry st c i =
            { codeMap := updateMap c ⟨[], true⟩ st.codeMap,
              validCodes := st.validCodes ++ [c] } := by
          unfold stepEntry
          rw [hlk]
          simp only [Option.getD_some, hval, Bool.false_eq_true, if_false, ← hinds, hlen,
            if_true]
        rw [hstep]
        refine ⟨?_, ?_, ?_, ?_⟩
        · simp [List.nodup_append, hnd, hcnv]
        · intro r
          by_cases hr : r = c
          · subst hr
            simp only [List.mem_append, List.mem_singleton]
            constructor
            · intro _
              rw [hcard]
              exact hlen
            · intro _
              simp
          · rw [idxSet_append_ne entries c r i hr]
            simp only [List.mem_append, List.mem_singleton, hr, or_false]
            exact hvc r
        · intro r info' hr
          by_cases hrc : r = c
          · subst hrc
            rw [lookup_updateMap_self] at hr
            cases hr
            refine ⟨by simp, fun hfv => ?_⟩
            cases hfv
          · rw [lookup_updateMap_ne c r _ _ hrc] at hr
            obtain ⟨hiff', hfalse'⟩ := hmap r info' hr
            rw [idxSet_append_ne entries c r i hrc]
            refine ⟨?_, hfalse'⟩
            rw [hiff']
            simp [hrc]
        · intro r hr
          by_cases hrc : r = c
          · subst hrc
            rw [lookup_updateMap_self] at hr
            cases hr
          · rw [lookup_updateMap_ne c r _ _ hrc] at hr
            rw [idxSet_append_ne entries c r i hrc]
            exact hnone r hr
      · -- still below two sources: only the index set grows
        have hstep : stepEntry st c i =
            { codeMap := updateMap c ⟨inds, false⟩ st.codeMap,
              validCodes := st.validCodes } := by
          unfold stepEntry
          rw [hlk]
          simp only [Option.getD_some, hval, Bool.false_eq_true, if_false, ← hinds, hlen]
        rw [hstep]
        refine ⟨hnd, ?_, ?_, ?_⟩
        · intro r
          by_cases hr : r = c
          · subst hr
            constructor
            · intro hin
              exact absurd hin hcnv
            · intro hge
              rw [hcard] at hge
              exact absurd hge hlen
          · rw [idxSet_append_ne entries c r i hr]
            exact hvc r
        · intro r info' hr
          by_cases hrc : r = c
          · subst hrc
            rw [lookup_updateMap_self] at hr
            cases hr
            refine ⟨by simpa using hcnv, fun _ => ⟨hindsnd, ?_⟩⟩
            rw [idxSet_append_self]
            exact hindsset
          · rw [lookup_updateMap_ne c r _ _ hrc] at hr
            rw [idxSet_append_ne entries c r i hrc]
            exact hmap r info' hr
        · intro r hr
          by_cases hrc : r = c
          · subst hrc
            rw [lookup_updateMap_self] at hr
            cases hr
          · rw [lookup_updateMap_ne c r _ _ hrc] at hr
            rw [idxSet_append_ne entries c r i hrc]
            exact hnone r hr
    · -- the code is already promoted: the line is ignored
      obtain ⟨hiff, _⟩ := hmap c info hlk
      have hcv : c ∈ st.validCodes := hiff.mp hval
      have hstep : stepEntry st c i = st := by
        unfold stepEntry
        rw [hlk]
        simp [hval]
      rw [hstep]
      refine ⟨hnd, ?_, ?_, ?_⟩
      · intro r
        by_cases hr : r = c
        · subst hr
          rw [idxSet_append_self]
          constructor
          · intro _
            calc 2 ≤ (idxSet entries r).card := (hvc r).mp hcv
            _ ≤ (insert i (idxSet entries r)).card :=
                Finset.card_le_card (Finset.subset_insert i _)
          · intro _
            exact hcv
        · rw [idxSet_append_ne entries c r i hr]
          exact hvc r
      · intro r info' hr
        by_cases hrc : r = c
        · subst hrc
          rw [hlk] at hr
          cases hr
          refine ⟨hiff, fun hfv => ?_⟩
          rw [hfv] at hval
          cases hval
        · rw [idxSet_append_ne entries c r i hrc]
          exact hmap r info' hr
      · intro r hr
        by_cases hrc : r = c
        · subst hrc
          rw [hlk] at hr
          cases hr
        · rw [idxSet_append_ne entries c r i hrc]
          exact hnone r hr

theorem reducerInv_init : ReducerInv initState [] := by
  refine ⟨List.nodup_nil, ?_, ?_, ?_⟩
  · intro r
    simp [initState, idxSet_nil]
  · intro r info hr
    simp [initState, lookupMap] at hr
  · intro r _
    exact idxSet_nil r

theorem processEntriesState_inv (entries : List (List Nat × Int)) :
    ReducerInv (processEntriesState entries) entries := by
  induction entries using List.reverseRecOn with
  | nil => exact reducerInv_init
  | append_singleton es e ih =>
    rcases e with ⟨c, i⟩
    have : processEntriesState (es ++ [(c, i)])
        = stepEntry (processEntriesState es) c i := by
      unfold processEntriesState
      rw [List.foldl_append]
      rfl
    rw [this]
    exact stepEntry_inv _ es c i ih

/-! ### Spill-file round trip -/

theorem natDecimal_no_nl (n : Nat) : (10 : Nat) ∉ natDecimal n := by
  intro h
  have := natDecimal_digits n 10 h
  omega

theorem natDecimal_no_pipe (n : Nat) : (124 : Nat) ∉ natDecimal n := by
  intro h
  have := natDecimal_digits n 124 h
  omega

theorem natDecimal_last_ne_cr (n : Nat) :
    (natDecimal n).getLast? ≠ some 13 := by
  intro h
  have hmem : (13 : Nat) ∈ (natDecimal n).getLast? := by
    rw [h]
    rfl
  rcases List.mem_getLast?_eq_getLast hmem with ⟨hne, heq⟩
  have h13 : (13 : Nat) ∈ natDecimal n := heq ▸ List.getLast_mem hne
  have := natDecimal_digits n 13 h13
  omega

theorem entryLine_no_nl (e : List Nat × Nat) (h : (10 : Nat) ∉ e.1) :
    (10 : Nat) ∉ entryLine e := by
  intro hm
  rcases List.mem_append.mp hm with h1 | h2
  · exact h h1
  · rcases List.mem_cons.mp h2 with h3 | h4
    · cases h3
    · exact natDecimal_no_nl e.2 h4

theorem entryLine_last_ne_cr (e : List Nat × Nat) :
    (entryLine e).getLast? ≠ some 13 := by
  unfold entryLine
  have hne := natDecimal_ne_nil e.2
  rw [show (e.1 ++ 124 :: natDecimal e.2) = (e.1 ++ [124]) ++ natDecimal e.2 by simp]
  rw [List.getLast?_append_of_ne_nil _ hne]
  exact natDecimal_last_ne_cr e.2

theorem scanLines_spillOfEntries (entries : List (List Nat × Nat))
    (h : ∀ e ∈ entries, (10 : Nat) ∉ e.1) :
    scanLines (spillOfEntries entries) = entries.map entryLine := by
  unfold spillOfEntries
  rw [show (List.map (fun e => entryLine e ++ [10]) entries)
      = List.map (fun l => l ++ [10]) (List.map entryLine entries) by
    rw [List.map_map]; rfl]
  apply scanLines_flatten
  intro l hl
  rcases List.mem_map.mp hl with ⟨e, he, rfl⟩
  exact ⟨entryLine_no_nl e (h e he), entryLine_last_ne_cr e⟩

theorem parseLine_none_of_len (line : List Nat)
    (h : (splitPipe line).length ≠ 2) : parseLine line = none := by
  unfold parseLine
  rcases hsp : splitPipe line with _ | ⟨a, _ | ⟨b, _ | _⟩⟩ <;> simp_all

theorem parseLine_entryLine (e : List Nat × Nat) (hp : (124 : Nat) ∉ e.1)
    (hb : e.2 ≤ intMax64) :
    parseLine (entryLine e) = some (e.1, ((e.2 : Nat) : Int)) := by
  unfold parseLine entryLine
  rw [splitPipe_append_pipe _ _ hp, splitPipe_no_pipe _ (natDecimal_no_pipe e.2)]
  simp [atoi_natDecimal, hb]

theorem parseLine_entryLine_some (e : List Nat × Nat) (c : List Nat) (x : Int)
    (h : parseLine (entryLine e) = some (c, x)) :
    c = e.1 ∧ x = ((e.2 : Nat) : Int) := by
  by_cases hp : (124 : Nat) ∈ e.1
  · exfalso
    have hcnt : (entryLine e).count 124 ≠ 1 := by
      unfold entryLine
      rw [List.count_append, List.count_cons]
      have h1 : 1 ≤ e.1.count 124 := List.count_pos_iff.mpr hp
      have h2 : (natDecimal e.2).count 124 = 0 :=
        List.count_eq_zero.mpr (natDecimal_no_pipe e.2)
      simp [h2]
      omega
    have : parseLine (entryLine e) = none := by
      apply parseLine_none_of_len
      rw [splitPipe_length]
      omega
    rw [this] at h
    cases h
  · by_cases hb : e.2 ≤ intMax64
    · rw [parseLine_entryLine e hp hb] at h
      have h' := Option.some.inj h
      exact ⟨(congrArg Prod.fst h').symm, (congrArg Prod.snd h').symm⟩
    · have hnone : parseLine (entryLine e) = none := by
        unfold parseLine entryLine
        rw [splitPipe_append_pipe _ _ hp, splitPipe_no_pipe _ (natDecimal_no_pipe e.2)]
        simp [atoi_natDecimal, hb]
      rw [hnone] at h
      cases h

theorem processLines_foldl (lines : List (List Nat)) : ∀ st : BucketState,
    lines.foldl stepLine st
      = (lines.filterMap parseLine).foldl (fun st e => stepEntry st e.1 e.2) st := by
  induction lines with
  | nil => intro st; rfl
  | cons l ls ih =>
    intro st
    rcases hp : parseLine l with _ | ci
    · rw [List.foldl_cons, List.filterMap_cons_none hp]
      rw [show stepLine st l = st by simp [stepLine, hp]]
      exact ih st
    · rw [List.foldl_cons, List.filterMap_cons_some hp]
      rw [show stepLine st l = stepEntry st ci.1 ci.2 by simp [stepLine, hp]]
      rw [List.foldl_cons]
      exact ih _

theorem processBucket_eq (spill : List Nat) :
    processBucket spill
      = (processEntriesState ((scanLines spill).filterMap parseLine)).validCodes := by
  unfold processBucket processEntriesState
  rw [processLines_foldl]

theorem processBucket_spec (spill : List Nat) :
    (processBucket spill).Nodup
      ∧ ∀ r, (r ∈ processBucket spill ↔
          2 ≤ (idxSet ((scanLines spill).filterMap parseLine) r).card) := by
  have inv := processEntriesState_inv ((scanLines spill).filterMap parseLine)
  rw [processBucket_eq]
  exact ⟨inv.1, inv.2.1⟩

theorem toFinset_map_intCast (l : List Nat) :
    (l.map (fun n : Nat => (n : Int))).toFinset
      = l.toFinset.image (fun n : Nat => (n : Int)) := by
  induction l with
  | nil => simp
  | cons x xs ih => simp [ih]

theorem intCast_injective : Function.Injective (fun n : Nat => (n : Int)) :=
  fun _ _ h => Int.natCast_inj.mp h

theorem idxSet_cast (entries : List (List Nat × Nat)) (r : List Nat) :
    idxSet (entries.map (fun e => (e.1, ((e.2 : Nat) : Int)))) r
      = ((entries.filter (fun e => e.1 = r)).map (fun e => e.2)).toFinset.image
          (fun n : Nat => (n : Int)) := by
  unfold idxSet
  rw [List.filter_map, List.map_map]
  rw [show ((fun e => decide (e.1 = r)) ∘ fun e : List Nat × Nat => (e.1, ((e.2 : Nat) : Int)))
      = (fun e : List Nat × Nat => decide (e.1 = r)) from rfl]
  rw [show ((fun e : List Nat × Int => e.2) ∘ fun e : List Nat × Nat => (e.1, ((e.2 : Nat) : Int)))
      = ((fun n : Nat => (n : Int)) ∘ fun e : List Nat × Nat => e.2) from rfl]
  rw [← List.map_map, toFinset_map_intCast]

theorem filterMap_parse_entries (entries : List (List Nat × Nat))
    (h : ∀ e ∈ entries, (124 : Nat) ∉ e.1 ∧ e.2 ≤ intMax64) :
    ((entries.map entryLine).filterMap parseLine)
      = entries.map (fun e => (e.1, ((e.2 : Nat) : Int))) := by
  induction entries with
  | nil => rfl
  | cons e es ih =>
    have he := h e (List.mem_cons_self e es)
    rw [List.map_cons, List.map_cons,
      List.filterMap_cons_some (parseLine_entryLine e he.1 he.2),
      ih (fun x hx => h x (List.mem_cons_of_mem e hx))]

theorem rawScanAux_append_nl (l : List Nat) : ∀ acc rest, (10 : Nat) ∉ l →
    rawScanAux acc (l ++ 10 :: rest) =
      (acc.reverse ++ l) :: (if rest.isEmpty then [] else rawScanAux [] rest) := by
  induction l with
  | nil => intro acc rest _; simp [rawScanAux]
  | cons b l' ih =>
    intro acc rest h
    have hb : b ≠ 10 := fun hb => h (hb ▸ List.mem_cons_self b l')
    have h' : (10 : Nat) ∉ l' := fun hr => h (List.mem_cons_of_mem b hr)
    simp only [List.cons_append, rawScanAux, hb, if_false, List.append_eq]
    rw [ih (b :: acc) rest h']
    simp

theorem rawSegments_append_line (l rest : List Nat) (h : (10 : Nat) ∉ l) :
    rawSegments (l ++ 10 :: rest) = l :: rawSegments rest := by
  rw [rawSegments, if_neg (by simp)]
  rw [rawScanAux_append_nl l [] rest h]
  rcases rest with _ | ⟨b, rest'⟩
  · simp [rawSegments]
  · simp [rawSegments]

theorem rawSegments_flatten (lines : List (List Nat))
    (h : ∀ l ∈ lines, (10 : Nat) ∉ l) :
    rawSegments ((lines.map (· ++ [10])).flatten) = lines := by
  induction lines with
  | nil => simp [rawSegments]
  | cons l ls ih =>
    have hl := h l (List.mem_cons_self l ls)
    have hflat : ((l :: ls).map (· ++ [10])).flatten
        = l ++ 10 :: (ls.map (· ++ [10])).flatten := by
      simp
    rw [hflat, rawSegments_append_line l _ hl,
      ih (fun x hx => h x (List.mem_cons_of_mem l hx))]

theorem rawSegments_spillOfEntries (entries : List (List Nat × Nat))
    (h : ∀ e ∈ entries, (10 : Nat) ∉ e.1) :
    rawSegments (spillOfEntries entries) = entries.map entryLine := by
  unfold spillOfEntries
  rw [show (List.map (fun e => entryLine e ++ [10]) entries)
      = List.map (fun l => l ++ [10]) (List.map entryLine entries) by
    rw [List.map_map]; rfl]
  apply rawSegments_flatten
  intro l hl
  rcases List.mem_map.mp hl with ⟨e, he, rfl⟩
  exact entryLine_no_nl e (h e he)

/-- Counterexample to C3 as stated: a spill file whose lines are well formed
(`record|index`, one pipe, decimal non-negative indices) but whose 64 KiB
record exceeds the reducer scanner's default token limit. The claim predicts
the record (paired with the two distinct indices 0 and 1) is returned; the Go
code's scanner stops with `ErrTooLong` and `processBucket` returns an error
and no list. -/
theorem overlong_line_counterexample :
    processBucketRun (spillOfEntries
        [(List.replicate 65536 65, 0), (List.replicate 65536 65, 1)]) = none := by
  have h10 : ∀ e ∈ [((List.replicate 65536 65 : List Nat), (0 : Nat)),
      (List.replicate 65536 65, 1)], (10 : Nat) ∉ e.1 := by
    intro e he
    rcases List.mem_cons.mp he with rfl | he'
    · intro hm
      obtain ⟨-, h65⟩ := List.mem_replicate.mp hm
      omega
    · rcases List.mem_cons.mp he' with rfl | he''
      · intro hm
        obtain ⟨-, h65⟩ := List.mem_replicate.mp hm
        omega
      · cases he''
  have hmap : rawSegments (spillOfEntries
      [((List.replicate 65536 65 : List Nat), (0 : Nat)), (List.replicate 65536 65, 1)])
      = [entryLine (List.replicate 65536 65, 0), entryLine (List.replicate 65536 65, 1)] := by
    rw [rawSegments_spillOfEntries _ h10, List.map_cons, List.map_cons, List.map_nil]
  have hnd0 : natDecimal 0 = [48] := rfl
  have hlen : (entryLine ((List.replicate 65536 65 : List Nat), (0 : Nat))).length
      = 65538 := by
    show (List.replicate 65536 65 ++ 124 :: natDecimal 0).length = 65538
    rw [hnd0, List.length_append, List.length_replicate]
    norm_num
  have hfalse : (decide ((entryLine ((List.replicate 65536 65 : List Nat), (0 : Nat))).length
      < maxScanTokenSize)) = false := by
    rw [hlen]
    decide
  unfold processBucketRun
  rw [hmap, List.all_cons, hfalse, Bool.false_and]
  rw [if_neg (by simp)]

/-- C3 (amended): for a well-formed spill file built from `(record, index)`
entries (records free of `|` and `\n`, indices within the Go `int` range)
whose lines stay below the reducer scanner's 64 KiB default token limit, the
scan succeeds (no `ErrTooLong`) and processBucket returns exactly the records
paired with at least two distinct index values — each such record exactly
once, with repeated occurrences of the same pair counting only once. A
well-formed spill with a line of 64 KiB or more instead makes the run fail
with an error and no list (see the counterexample). -/
theorem processBucket_two_sources (entries : List (List Nat × Nat))
    (h : ∀ e ∈ entries, (124 : Nat) ∉ e.1 ∧ (10 : Nat) ∉ e.1 ∧ e.2 ≤ intMax64
        ∧ (entryLine e).length < maxScanTokenSize) :
    processBucketRun (spillOfEntries entries)
        = some (processBucket (spillOfEntries entries))
      ∧ (processBucket (spillOfEntries entries)).Nodup
      ∧ ∀ r, (r ∈ processBucket (spillOfEntries entries) ↔
          2 ≤ ((entries.filter (fun e => e.1 = r)).map (fun e => e.2)).toFinset.card) := by
  have hrun : processBucketRun (spillOfEntries entries)
      = some (processBucket (spillOfEntries entries)) := by
    unfold processBucketRun
    rw [rawSegments_spillOfEntries entries (fun e he => (h e he).2.1)]
    rw [if_pos]
    rw [List.all_eq_true]
    intro l hl
    rcases List.mem_map.mp hl with ⟨e, he, rfl⟩
    exact decide_eq_true (h e he).2.2.2
  have hscan := scanLines_spillOfEntries entries (fun e he => (h e he).2.1)
  have hfm : (scanLines (spillOfEntries entries)).filterMap parseLine
      = entries.map (fun e => (e.1, ((e.2 : Nat) : Int))) := by
    rw [hscan]
    exact filterMap_parse_entries entries (fun e he => ⟨(h e he).1, (h e he).2.2.1⟩)
  obtain ⟨hnd, hiff⟩ := processBucket_spec (spillOfEntries entries)
  refine ⟨hrun, hnd, fun r => ?_⟩
  rw [hiff r, hfm, idxSet_cast,
    Finset.card_image_of_injective _ intCast_injective]

/-- Witness for C3 on the spec's reducer scenario: the spill
`HAPPYHRS|0, HAPPYHRS|1, FIFTYOFF|0, FIFTYOFF|2, TESTCODE|0, SHORTCD|1,
SHORTCD|2` scans successfully and yields a duplicate-free output containing
exactly the records with two distinct sources. -/
theorem processBucket_two_sources_witness :
    processBucketRun (spillOfEntries
        [([72, 65, 80, 80, 89, 72, 82, 83], 0), ([72, 65, 80, 80, 89, 72, 82, 83], 1),
         ([70, 73, 70, 84, 89, 79, 70, 70], 0), ([70, 73, 70, 84, 89, 79, 70, 70], 2),
         ([84, 69, 83, 84, 67, 79, 68, 69], 0),
         ([83, 72, 79, 82, 84, 67, 68], 1), ([83, 72, 79, 82, 84, 67, 68], 2)])
        = some (processBucket (spillOfEntries
        [([72, 65, 80, 80, 89, 72, 82, 83], 0), ([72, 65, 80, 80, 89, 72, 82, 83], 1),
         ([70, 73, 70, 84, 89, 79, 70, 70], 0), ([70, 73, 70, 84, 89, 79, 70, 70], 2),
         ([84, 69, 83, 84, 67, 79, 68, 69], 0),
         ([83, 72, 79, 82, 84, 67, 68], 1), ([83, 72, 79, 82, 84, 67, 68], 2)]))
      ∧ (processBucket (spillOfEntries
        [([72, 65, 80, 80, 89, 72, 82, 83], 0), ([72, 65, 80, 80, 89, 72, 82, 83], 1),
         ([70, 73, 70, 84, 89, 79, 70, 70], 0), ([70, 73, 70, 84, 89, 79, 70, 70], 2),
         ([84, 69, 83, 84, 67, 79, 68, 69], 0),
         ([83, 72, 79, 82, 84, 67, 68], 1), ([83, 72, 79, 82, 84, 67, 68], 2)])).Nodup
      ∧ ∀ r, (r ∈ processBucket (spillOfEntries
        [([72, 65, 80, 80, 89, 72, 82, 83], 0), ([72, 65, 80, 80, 89, 72, 82, 83], 1),
         ([70, 73, 70, 84, 89, 79, 70, 70], 0), ([70, 73, 70, 84, 89, 79, 70, 70], 2),
         ([84, 69, 83, 84, 67, 79, 68, 69], 0),
         ([83, 72, 79, 82, 84, 67, 68], 1), ([83, 72, 79, 82, 84, 67, 68], 2)]) ↔
          2 ≤ (([([72, 65, 80, 80, 89, 72, 82, 83], (0 : Nat)), ([72, 65, 80, 80, 89, 72, 82, 83], 1),
         ([70, 73, 70, 84, 89, 79, 70, 70], 0), ([70, 73, 70, 84, 89, 79, 70, 70], 2),
         ([84, 69, 83, 84, 67, 79, 68, 69], 0),
         ([83, 72, 79, 82, 84, 67, 68], 1), ([83, 72, 79, 82, 84, 67, 68], 2)].filter
            (fun e => e.1 = r)).map (fun e => e.2)).toFinset.card) :=
  processBucket_two_sources _ (by decide)

/-! ### Partitioner output characterization -/

theorem mem_spillFilter (f : List Nat) (b k : Nat) (c : List Nat) (i : Nat) :
    ((c, i) ∈ (survivors f).filterMap
        (fun c' => if bucketOf c' = b then some (c', k) else none))
      ↔ (c ∈ survivors f ∧ bucketOf c = b ∧ i = k) := by
  rw [List.mem_filterMap]
  constructor
  · rintro ⟨c', hc', hif⟩
    split at hif
    · rename_i hb'
      simp at hif
      obtain ⟨rfl, rfl⟩ := hif
      exact ⟨hc', hb', rfl⟩
    · cases hif
  · rintro ⟨h1, h2, rfl⟩
    exact ⟨c, h1, by simp [h2]⟩

theorem mem_spillLinesFrom (b : Nat) (c : List Nat) (i : Nat) :
    ∀ (l : List (List Nat)) (k : Nat),
      ((c, i) ∈ spillLinesFrom k b l ↔
        ∃ j f, l[j]? = some f ∧ i = k + j ∧ c ∈ survivors f ∧ bucketOf c = b) := by
  intro l
  induction l with
  | nil =>
    intro k
    simp [spillLinesFrom]
  | cons f rest ih =>
    intro k
    rw [spillLinesFrom, List.mem_append, mem_spillFilter, ih (k + 1)]
    constructor
    · rintro (⟨h1, h2, rfl⟩ | ⟨j, f', hj, hi, hs, hb⟩)
      · exact ⟨0, f, by simp, by omega, h1, h2⟩
      · exact ⟨j + 1, f', by simpa using hj, by omega, hs, hb⟩
    · rintro ⟨j, f', hj, hi, hs, hb⟩
      cases j with
      | zero =>
        simp at hj
        subst hj
        exact Or.inl ⟨hs, hb, by omega⟩
      | succ j' =>
        simp at hj
        exact Or.inr ⟨j', f', hj, by omega, hs, hb⟩

theorem mem_spillLines (inputs : List (List Nat)) (b : Nat) (c : List Nat)
    (i : Nat) :
    ((c, i) ∈ spillLines inputs b ↔
      ∃ f, inputs[i]? = some f ∧ c ∈ survivors f ∧ bucketOf c = b) := by
  unfold spillLines
  rw [mem_spillLinesFrom]
  constructor
  · rintro ⟨j, f, hj, hi, hs, hb⟩
    have : i = j := by omega
    subst this
    exact ⟨f, hj, hs, hb⟩
  · rintro ⟨f, hf, hs, hb⟩
    exact ⟨i, f, hf, by omega, hs, hb⟩

theorem spillLines_no_nl (inputs : List (List Nat)) (b : Nat) :
    ∀ e ∈ spillLines inputs b, (10 : Nat) ∉ e.1 := by
  rintro ⟨c, i⟩ he
  obtain ⟨f, _, hs, _⟩ := (mem_spillLines inputs b c i).mp he
  exact scanLines_mem_no_nl f c (List.mem_of_mem_filter hs)

theorem scanLines_spillContent (inputs : List (List Nat)) (b : Nat) :
    scanLines (spillContent inputs b) = (spillLines inputs b).map entryLine := by
  unfold spillContent
  exact scanLines_spillOfEntries _ (spillLines_no_nl inputs b)

theorem parsed_mem_spill (inputs : List (List Nat)) (b : Nat) (c : List Nat)
    (x : Int)
    (h : (c, x) ∈ (scanLines (spillContent inputs b)).filterMap parseLine) :
    ∃ i : Nat, x = ((i : Nat) : Int) ∧ (c, i) ∈ spillLines inputs b := by
  rw [scanLines_spillContent] at h
  rcases List.mem_filterMap.mp h with ⟨line, hline, hparse⟩
  rcases List.mem_map.mp hline with ⟨e, he, rfl⟩
  obtain ⟨hc, hx⟩ := parseLine_entryLine_some e c x hparse
  refine ⟨e.2, hx, ?_⟩
  rw [hc]
  rcases e with ⟨c', i'⟩
  exact he

theorem spill_parsed_eq_of_contract (inputs : List (List Nat)) (b : Nat)
    (hc : inputContract inputs) :
    (scanLines (spillContent inputs b)).filterMap parseLine
      = (spillLines inputs b).map (fun e => (e.1, ((e.2 : Nat) : Int))) := by
  rw [scanLines_spillContent]
  apply filterMap_parse_entries
  rintro ⟨c, i⟩ he
  obtain ⟨f, hf, hs, _⟩ := (mem_spillLines inputs b c i).mp he
  have hfin : f ∈ inputs := List.getElem?_mem hf
  constructor
  · exact (hc.2.2 f hfin c (List.mem_of_mem_filter hs)).1
  · have hilt : i < inputs.length := by
      rcases List.getElem?_eq_some.mp hf with ⟨hh, _⟩
      exact hh
    have hlen := hc.2.1
    have hpow : (2 : Nat) ^ 63 = 9223372036854775808 := by norm_num
    rw [hpow] at hlen
    unfold intMax64
    omega

theorem processBucket_mem_bucket (inputs : List (List Nat)) (b : Nat)
    (r : List Nat) (h : r ∈ processBucket (spillContent inputs b)) :
    bucketOf r = b := by
  obtain ⟨_, hiff⟩ := processBucket_spec (spillContent inputs b)
  have hcard := (hiff r).mp h
  have hpos : 0 < (idxSet ((scanLines (spillContent inputs b)).filterMap parseLine) r).card := by
    omega
  obtain ⟨x, hx⟩ := Finset.card_pos.mp hpos
  rw [mem_idxSet] at hx
  obtain ⟨i, _, hsi⟩ := parsed_mem_spill inputs b r x hx
  obtain ⟨_, _, _, hb⟩ := (mem_spillLines inputs b r i).mp hsi
  exact hb

/-! ### Sorting and the orchestrator -/

theorem sortLex_sorted (l : List (List Nat)) :
    List.Sorted (· ≤ ·) (sortLex l) :=
  List.sorted_insertionSort _ l

theorem sortLex_perm (l : List (List Nat)) : (sortLex l).Perm l :=
  List.perm_insertionSort _ l

theorem mem_findValidCodes (inputs : List (List Nat)) (r : List Nat) :
    r ∈ findValidCodes inputs
      ↔ ∃ b, b < numBuckets ∧ r ∈ processBucket (spillContent inputs b) := by
  unfold findValidCodes
  rw [(sortLex_perm _).mem_iff, List.mem_flatten]
  unfold bucketResults
  constructor
  · rintro ⟨l, hl, hr⟩
    rcases List.mem_map.mp hl with ⟨b, hb, rfl⟩
    exact ⟨b, List.mem_range.mp hb, hr⟩
  · rintro ⟨b, hb, hr⟩
    exact ⟨processBucket (spillContent inputs b),
      List.mem_map.mpr ⟨b, List.mem_range.mpr hb, rfl⟩, hr⟩

/-- C4: the list returned by FindValidCodesHashPartition is strictly sorted in
lexicographic byte order — in particular it contains no duplicates: the
per-bucket outputs are duplicate-free, any two distinct buckets emit disjoint
record sets (every emitted record hashes to its own bucket), and the final
sort orders the union. -/
theorem findValidCodes_strictly_sorted (inputs : List (List Nat)) :
    List.Sorted (· < ·) (findValidCodes inputs) := by
  have hnodupflat : (bucketResults inputs).flatten.Nodup := by
    rw [List.nodup_flatten]
    constructor
    · intro l hl
      rcases List.mem_map.mp hl with ⟨b, _, rfl⟩
      exact (processBucket_spec _).1
    · unfold bucketResults
      rw [List.pairwise_map]
      apply (List.pairwise_lt_range numBuckets).imp
      intro a b hab r hra hrb
      have h1 := processBucket_mem_bucket inputs a r hra
      have h2 := processBucket_mem_bucket inputs b r hrb
      omega
  have hnodup : (findValidCodes inputs).Nodup := by
    unfold findValidCodes
    exact (sortLex_perm _).nodup_iff.mpr hnodupflat
  exact (sortLex_sorted (bucketResults inputs).flatten).lt_of_le hnodup

/-- C1: every record in the list returned by FindValidCodesHashPartition was
present (as a scanned line) in at least two distinct input files. -/
theorem findValidCodes_two_files (inputs : List (List Nat)) (r : List Nat)
    (_hc : inputContract inputs) (h : r ∈ findValidCodes inputs) :
    ∃ i j : Nat, i ≠ j ∧
      (∃ fi, inputs[i]? = some fi ∧ r ∈ scanLines fi) ∧
      (∃ fj, inputs[j]? = some fj ∧ r ∈ scanLines fj) := by
  obtain ⟨b, _, hmem⟩ := (mem_findValidCodes inputs r).mp h
  obtain ⟨_, hiff⟩ := processBucket_spec (spillContent inputs b)
  have hcard := (hiff r).mp hmem
  have h1 : 1 < (idxSet ((scanLines (spillContent inputs b)).filterMap parseLine) r).card := by
    omega
  obtain ⟨x, hx, y, hy, hxy⟩ := Finset.one_lt_card.mp h1
  rw [mem_idxSet] at hx hy
  obtain ⟨i, rfl, hsi⟩ := parsed_mem_spill inputs b r x hx
  obtain ⟨j, rfl, hsj⟩ := parsed_mem_spill inputs b r y hy
  have hij : i ≠ j := fun hh => hxy (by rw [hh])
  obtain ⟨fi, hfi, hsvi, _⟩ := (mem_spillLines inputs b r i).mp hsi
  obtain ⟨fj, hfj, hsvj, _⟩ := (mem_spillLines inputs b r j).mp hsj
  exact ⟨i, j, hij, ⟨fi, hfi, List.mem_of_mem_filter hsvi⟩,
    ⟨fj, hfj, List.mem_of_mem_filter hsvj⟩⟩

set_option maxRecDepth 1000000 in
/-- Witness for C1: with two input files both equal to `ABCDEFGH\n`, the
record `ABCDEFGH` is in the output and indeed occurs in two distinct
inputs. -/
theorem findValidCodes_two_files_witness :
    ∃ i j : Nat, i ≠ j ∧
      (∃ fi, [[65, 66, 67, 68, 69, 70, 71, 72, 10],
              [65, 66, 67, 68, 69, 70, 71, 72, 10]][i]? = some fi
        ∧ [65, 66, 67, 68, 69, 70, 71, 72] ∈ scanLines fi) ∧
      (∃ fj, [[65, 66, 67, 68, 69, 70, 71, 72, 10],
              [65, 66, 67, 68, 69, 70, 71, 72, 10]][j]? = some fj
        ∧ [65, 66, 67, 68, 69, 70, 71, 72] ∈ scanLines fj) :=
  findValidCodes_two_files
    [[65, 66, 67, 68, 69, 70, 71, 72, 10], [65, 66, 67, 68, 69, 70, 71, 72, 10]]
    [65, 66, 67, 68, 69, 70, 71, 72]
    (by refine ⟨by decide, by decide, by decide⟩)
    (by decide)

/-- C2: under the input contract, a record absent from the output either has
byte length outside 8 to 10 or occurs in at most one input file; moreover the
partition filter keeps exactly the lengths 8 through 10 at the boundaries:
lengths 8 and 10 pass, lengths 7 and 11 are dropped. -/
theorem findValidCodes_complete (inputs : List (List Nat)) (r : List Nat)
    (hc : inputContract inputs) (hnot : r ∉ findValidCodes inputs) :
    (r.length < 8 ∨ 10 < r.length ∨
      ¬ ∃ i j : Nat, i ≠ j ∧
          (∃ fi, inputs[i]? = some fi ∧ r ∈ scanLines fi) ∧
          (∃ fj, inputs[j]? = some fj ∧ r ∈ scanLines fj))
    ∧ (∀ c : List Nat, c.length = 8 ∨ c.length = 10 → keepCode c = true)
    ∧ (∀ c : List Nat, c.length = 7 ∨ c.length = 11 → keepCode c = false) := by
  refine ⟨?_, ?_, ?_⟩
  · by_cases h8 : r.length < 8
    · exact Or.inl h8
    · by_cases h10 : 10 < r.length
      · exact Or.inr (Or.inl h10)
      · refine Or.inr (Or.inr ?_)
        rintro ⟨i, j, hij, ⟨fi, hfi, hri⟩, ⟨fj, hfj, hrj⟩⟩
        apply hnot
        have hkeep : keepCode r = true := by
          have hne : r ≠ [] := by
            intro hh
            rw [hh] at h8
            simp at h8
          simp [keepCode, hne]
          omega
        have hsvi : r ∈ survivors fi := List.mem_filter.mpr ⟨hri, hkeep⟩
        have hsvj : r ∈ survivors fj := List.mem_filter.mpr ⟨hrj, hkeep⟩
        have hblt : bucketOf r < numBuckets :=
          Nat.mod_lt _ (by norm_num [numBuckets])
        have hsi : (r, i) ∈ spillLines inputs (bucketOf r) :=
          (mem_spillLines inputs (bucketOf r) r i).mpr ⟨fi, hfi, hsvi, rfl⟩
        have hsj : (r, j) ∈ spillLines inputs (bucketOf r) :=
          (mem_spillLines inputs (bucketOf r) r j).mpr ⟨fj, hfj, hsvj, rfl⟩
        have hparsed := spill_parsed_eq_of_contract inputs (bucketOf r) hc
        have hmi : ((i : Nat) : Int) ∈ idxSet
            ((scanLines (spillContent inputs (bucketOf r))).filterMap parseLine) r := by
          rw [mem_idxSet, hparsed]
          exact List.mem_map.mpr ⟨(r, i), hsi, rfl⟩
        have hmj : ((j : Nat) : Int) ∈ idxSet
            ((scanLines (spillContent inputs (bucketOf r))).filterMap parseLine) r := by
          rw [mem_idxSet, hparsed]
          exact List.mem_map.mpr ⟨(r, j), hsj, rfl⟩
        have hne' : ((i : Nat) : Int) ≠ ((j : Nat) : Int) :=
          fun hh => hij (Int.natCast_inj.mp hh)
        have hcard : 1 < (idxSet
            ((scanLines (spillContent inputs (bucketOf r))).filterMap parseLine) r).card :=
          Finset.one_lt_card.mpr ⟨_, hmi, _, hmj, hne'⟩
        have hmem : r ∈ processBucket (spillContent inputs (bucketOf r)) :=
          ((processBucket_spec _).2 r).mpr (by omega)
        exact (mem_findValidCodes inputs r).mpr ⟨bucketOf r, hblt, hmem⟩
  · rintro c (h | h) <;>
      (cases c with
      | nil => simp at h
      | cons x xs => simp [keepCode, h])
  · rintro c (h | h) <;>
      (cases c with
      | nil => simp at h
      | cons x xs => simp [keepCode, h])

set_option maxRecDepth 1000000 in
/-- Witness for C2: with two copies of the single-record file `A\n`, the
1-byte record `A` is not in the output, and the theorem reports its length is
below 8. -/
theorem findValidCodes_complete_witness :
    (([65] : List Nat).length < 8 ∨ 10 < ([65] : List Nat).length ∨
      ¬ ∃ i j : Nat, i ≠ j ∧
          (∃ fi, [[65, 10], [65, 10]][i]? = some fi ∧ [65] ∈ scanLines fi) ∧
          (∃ fj, [[65, 10], [65, 10]][j]? = some fj ∧ [65] ∈ scanLines fj))
    ∧ (∀ c : List Nat, c.length = 8 ∨ c.length = 10 → keepCode c = true)
    ∧ (∀ c : List Nat, c.length = 7 ∨ c.length = 11 → keepCode c = false) :=
  findValidCodes_complete [[65, 10], [65, 10]] [65]
    (by refine ⟨by decide, by decide, by decide⟩)
    (by decide)

/-- C8: the record list returned by the orchestrator does not depend on the
worker count. The worker count only determines the order in which per-bucket
result lists reach the collector, i.e. a permutation of `bucketResults`; any
two such collection orders sort to the same final list, and the deterministic
model `findValidCodes` is itself the bucket-order collection. -/
theorem findValidCodes_worker_independent (inputs : List (List Nat))
    (a1 a2 : List (List (List Nat)))
    (h1 : a1.Perm (bucketResults inputs)) (h2 : a2.Perm (bucketResults inputs)) :
    sortLex a1.flatten = sortLex a2.flatten
      ∧ findValidCodes inputs = sortLex (bucketResults inputs).flatten := by
  have hp : a1.flatten.Perm a2.flatten := (h1.trans h2.symm).flatten
  have hperm : (sortLex a1.flatten).Perm (sortLex a2.flatten) :=
    (sortLex_perm _).trans (hp.trans (sortLex_perm _).symm)
  exact ⟨List.eq_of_perm_of_sorted hperm (sortLex_sorted _) (sortLex_sorted _), rfl⟩

/-- Witness for C8: collecting the bucket results in bucket order and in
reversed order yields the same sorted artifact. -/
theorem findValidCodes_worker_independent_witness :
    sortLex (bucketResults [[72, 65, 80, 80, 89, 72, 82, 83, 10]]).flatten
        = sortLex (bucketResults [[72, 65, 80, 80, 89, 72, 82, 83, 10]]).reverse.flatten
      ∧ findValidCodes [[72, 65, 80, 80, 89, 72, 82, 83, 10]]
        = sortLex (bucketResults [[72, 65, 80, 80, 89, 72, 82, 83, 10]]).flatten :=
  findValidCodes_worker_independent [[72, 65, 80, 80, 89, 72, 82, 83, 10]]
    (bucketResults [[72, 65, 80, 80, 89, 72, 82, 83, 10]])
    (bucketResults [[72, 65, 80, 80, 89, 72, 82, 83, 10]]).reverse
    (List.Perm.refl _) (List.reverse_perm _)
